import Mathlib

/-!
Verification of the Dogecoin block-header module
(`packages/bitcore-lib-doge/lib/block/blockheader.js`).

Bytes are modelled as natural numbers; a byte list coming from an actual
`Buffer` satisfies `ValidBytes` (every entry `< 256`).  The `BufferReader`
and `BufferWriter` collaborators (fixed-width little/big-endian reads,
raw-range reads, varint reads, reverse-order reads, and the mirror-image
writes) are modelled at their documented interface: a read past the end of
the stream fails, modelled by `Option`.  Machine integers are `Nat`/`Int`
with explicit `% 2 ^ w` where JavaScript coerces, and a JavaScript signed
32-bit read is an `Int` in `[-2^31, 2^31)`.
-/

namespace Doge

/-- Every entry of the list is a byte value (`Buffer` invariant). -/
def ValidBytes (bs : List Nat) : Prop := ∀ b ∈ bs, b < 256

instance : DecidablePred ValidBytes := fun bs =>
  List.decidableBAll (fun b => b < 256) bs

/-- Little-endian byte decomposition of `n`, `width` bytes
(`BufferWriter.writeUInt*LE`). -/
def natToBytesLE : Nat → Nat → List Nat
  | 0, _ => []
  | w + 1, n => n % 256 :: natToBytesLE w (n / 256)

/-- Value of a byte list read as a little-endian unsigned integer. -/
def bytesToNatLE : List Nat → Nat
  | [] => 0
  | b :: r => b + 256 * bytesToNatLE r

/-- Reinterpret an unsigned 32-bit value as JavaScript's signed 32-bit
integer (`readInt32LE` result range). -/
def toInt32 (n : Nat) : Int :=
  if n < 2 ^ 31 then (n : Int) else (n : Int) - 2 ^ 32

/-- `BufferReader.read(n)`: take `n` raw bytes or fail past end of stream. -/
def readBytes (n : Nat) (bs : List Nat) : Option (List Nat × List Nat) :=
  if n ≤ bs.length then some (bs.take n, bs.drop n) else none

/-- `BufferReader.readUInt16LE`. -/
def readUInt16LE (bs : List Nat) : Option (Nat × List Nat) :=
  match bs with
  | b0 :: b1 :: r => some (b0 + 256 * b1, r)
  | _ => none

/-- `Buffer.readUInt16BE(pos)` used as a two-byte peek: fails when fewer
than two bytes remain, does not consume. -/
def peekUInt16BE (bs : List Nat) : Option Nat :=
  match bs with
  | b0 :: b1 :: _ => some (b0 * 256 + b1)
  | _ => none

/-- `BufferReader.readUInt16BE` (consuming). -/
def readUInt16BE (bs : List Nat) : Option (Nat × List Nat) :=
  match bs with
  | b0 :: b1 :: r => some (b0 * 256 + b1, r)
  | _ => none

/-- `BufferReader.readUInt32LE`. -/
def readUInt32LE (bs : List Nat) : Option (Nat × List Nat) :=
  match bs with
  | b0 :: b1 :: b2 :: b3 :: r =>
      some (b0 + 256 * (b1 + 256 * (b2 + 256 * b3)), r)
  | _ => none

/-- `BufferReader.readInt32LE` (signed). -/
def readInt32LE (bs : List Nat) : Option (Int × List Nat) :=
  match readUInt32LE bs with
  | some (n, r) => some (toInt32 n, r)
  | none => none

/-- Eight-byte little-endian read (`readUInt64LEBN` before `toNumber`). -/
def readUInt64LE (bs : List Nat) : Option (Nat × List Nat) :=
  match bs with
  | b0 :: b1 :: b2 :: b3 :: b4 :: b5 :: b6 :: b7 :: r =>
      some (b0 + 256 * (b1 + 256 * (b2 + 256 * (b3 + 256 * (b4 + 256 *
        (b5 + 256 * (b6 + 256 * b7)))))), r)
  | _ => none

/-- `BufferReader.readVarintNum`: marker byte, then the payload; the
eight-byte form goes through `BN.toNumber`, which rejects values of 54 or
more bits. -/
def readVarintNum (bs : List Nat) : Option (Nat × List Nat) :=
  match bs with
  | [] => none
  | b :: r =>
    if b = 0xfd then readUInt16LE r
    else if b = 0xfe then readUInt32LE r
    else if b = 0xff then
      match readUInt64LE r with
      | some (n, r) => if n < 2 ^ 53 then some (n, r) else none
      | none => none
    else some (b, r)

/-- `BufferReader.readReverse(32)`: 32 raw bytes, reversed. -/
def readReverse32 (bs : List Nat) : Option (List Nat × List Nat) :=
  match readBytes 32 bs with
  | some (v, r) => some (v.reverse, r)
  | none => none

/-- `BufferWriter.writeUInt32LE`. -/
def writeUInt32LE (n : Nat) : List Nat := natToBytesLE 4 n

/-- `BufferWriter.writeInt32LE` (two's complement of the signed value). -/
def writeInt32LE (i : Int) : List Nat := natToBytesLE 4 (i % 2 ^ 32).toNat

/-- `BufferWriter.writeVarintNum` (canonical shortest form). -/
def writeVarintNum (n : Nat) : List Nat :=
  if n < 0xfd then [n]
  else if n < 2 ^ 16 then 0xfd :: natToBytesLE 2 n
  else if n < 2 ^ 32 then 0xfe :: natToBytesLE 4 n
  else 0xff :: natToBytesLE 8 n

/-! ## Data model (blockheader.js) -/

/-- The five-plus-one fixed header fields (offsets 0..79 of the wire
layout). -/
structure PureHeader where
  version : Int
  prevHash : List Nat
  merkleRoot : List Nat
  time : Nat
  bits : Nat
  nonce : Nat
deriving DecidableEq, Repr

/-- A coinbase-transaction input (`getTxIn` in `_parseAuxPoW`). -/
structure TxIn where
  prevOutputHash : List Nat
  prevOutputIndex : List Nat
  scriptLen : Nat
  script : List Nat
  sequence : Nat
deriving DecidableEq, Repr

/-- A coinbase-transaction output (`getTxOut` in `_parseAuxPoW`); the
`Script` value object is opaque, modelled by its raw bytes. -/
structure TxOut where
  value : List Nat
  scriptLen : Nat
  script : List Nat
deriving DecidableEq, Repr

/-- The AuxPoW coinbase transaction (`getTxn` in `_parseAuxPoW`);
`txWitnesses` is the flat list the source pushes witness components
into, across all inputs. -/
structure CoinbaseTxn where
  version : Int
  flag : Nat
  txInCount : Nat
  txIn : List TxIn
  txOutCount : Nat
  txOut : List TxOut
  txWitnesses : List (List Nat)
  lockTime : Nat
deriving DecidableEq, Repr

/-- A Merkle branch (`merkleBranch` in `_parseAuxPoW`): hashes are read
with `readReverse(32)`, so they are stored reversed. -/
structure MerkleBranch where
  branchLen : Nat
  branchHashes : List (List Nat)
  branchSideMask : Int
deriving DecidableEq, Repr

/-- The AuxPoW payload.  `parentBlock` is decoded from exactly 80 raw
bytes; per the module contract the nested instance never carries AuxPoW
itself, so only the fixed fields are kept. -/
structure AuxPow where
  coinbaseTxn : CoinbaseTxn
  blockHash : List Nat
  coinbaseBranch : MerkleBranch
  blockchainBranch : MerkleBranch
  parentBlock : PureHeader
deriving DecidableEq, Repr

/-- A block header: the fixed fields plus the stored `_auxpow` slot. -/
structure BlockHeader extends PureHeader where
  auxpowF : Option AuxPow
deriving DecidableEq, Repr

/-- `BlockHeader.prototype.isAuxPow()`: bit 8 of the (signed 32-bit)
version, `this.version & (1 << 8)`, under JavaScript's 32-bit coercion. -/
def isAuxPowVersion (version : Int) : Bool :=
  (version % 2 ^ 32).toNat / 2 ^ 8 % 2 = 1

/-- The `auxpow` property getter: the stored slot when the flag bit is
set, otherwise `null`. -/
def auxpowGetter (h : BlockHeader) : Option AuxPow :=
  if isAuxPowVersion h.version then h.auxpowF else none

/-! ## Parsers (from `_fromBufferReader` / `_parseAuxPoW`) -/

/-- The fixed 80-byte field block of `_fromBufferReader`. -/
def parseFixedFields (bs : List Nat) : Option (PureHeader × List Nat) :=
  (readInt32LE bs).bind fun (version, bs) =>
  (readBytes 32 bs).bind fun (prevHash, bs) =>
  (readBytes 32 bs).bind fun (merkleRoot, bs) =>
  (readUInt32LE bs).bind fun (time, bs) =>
  (readUInt32LE bs).bind fun (bits, bs) =>
  (readUInt32LE bs).bind fun (nonce, bs) =>
  some (⟨version, prevHash, merkleRoot, time, bits, nonce⟩, bs)

/-- `getTxIn`: previous-output hash and index, length-prefixed script,
sequence. -/
def getTxIn (bs : List Nat) : Option (TxIn × List Nat) :=
  (readBytes 32 bs).bind fun (h, bs) =>
  (readBytes 4 bs).bind fun (idx, bs) =>
  (readVarintNum bs).bind fun (scriptLen, bs) =>
  (readBytes scriptLen bs).bind fun (script, bs) =>
  (readUInt32LE bs).bind fun (sequence, bs) =>
  some (⟨h, idx, scriptLen, script, sequence⟩, bs)

/-- The `for (let i = 0; i < txInCount; i++)` input loop. -/
def readTxIns : Nat → List Nat → Option (List TxIn × List Nat)
  | 0, bs => some ([], bs)
  | n + 1, bs =>
    (getTxIn bs).bind fun (t, bs) =>
    (readTxIns n bs).bind fun (l, bs) =>
    some (t :: l, bs)

/-- `getTxOut`: eight-byte value and length-prefixed output script. -/
def getTxOut (bs : List Nat) : Option (TxOut × List Nat) :=
  (readBytes 8 bs).bind fun (v, bs) =>
  (readVarintNum bs).bind fun (pkScriptLen, bs) =>
  (readBytes pkScriptLen bs).bind fun (pkScript, bs) =>
  some (⟨v, pkScriptLen, pkScript⟩, bs)

/-- The output loop. -/
def readTxOuts : Nat → List Nat → Option (List TxOut × List Nat)
  | 0, bs => some ([], bs)
  | n + 1, bs =>
    (getTxOut bs).bind fun (t, bs) =>
    (readTxOuts n bs).bind fun (l, bs) =>
    some (t :: l, bs)

/-- The inner witness-component loop: `componentCnt` components, each a
varint length and that many raw bytes. -/
def readComponents : Nat → List Nat → Option (List (List Nat) × List Nat)
  | 0, bs => some ([], bs)
  | n + 1, bs =>
    (readVarintNum bs).bind fun (componentLen, bs) =>
    (readBytes componentLen bs).bind fun (w, bs) =>
    (readComponents n bs).bind fun (u, bs) =>
    some (w :: u, bs)

/-- The outer witness loop: one component list per input, flattened into
one list exactly as the source pushes into `txWitnesses`. -/
def readWitnessGroups : Nat → List Nat → Option (List (List Nat) × List Nat)
  | 0, bs => some ([], bs)
  | n + 1, bs =>
    (readVarintNum bs).bind fun (componentCnt, bs) =>
    (readComponents componentCnt bs).bind fun (u, bs) =>
    (readWitnessGroups n bs).bind fun (more, bs) =>
    some (u ++ more, bs)

/-- `getTxn`: version; two-byte big-endian peek that consumes a witness
flag exactly when it reads 1; inputs; outputs; witnesses when the flag
was consumed; lock time. -/
def getTxn (bs : List Nat) : Option (CoinbaseTxn × List Nat) :=
  (readInt32LE bs).bind fun (version, bs) =>
  (peekUInt16BE bs).bind fun p =>
  (if p = 1 then readUInt16BE bs else some (0, bs)).bind fun (flag, bs) =>
  (readVarintNum bs).bind fun (txInCount, bs) =>
  (readTxIns txInCount bs).bind fun (txIn, bs) =>
  (readVarintNum bs).bind fun (txOutCount, bs) =>
  (readTxOuts txOutCount bs).bind fun (txOut, bs) =>
  (if flag ≠ 0 then readWitnessGroups txInCount bs
    else some ([], bs)).bind fun (txWitnesses, bs) =>
  (readUInt32LE bs).bind fun (lockTime, bs) =>
  some (⟨version, flag, txInCount, txIn, txOutCount, txOut, txWitnesses,
    lockTime⟩, bs)

/-- The number-of-hashes loop of `merkleBranch`: each hash is a
`readReverse(32)`. -/
def readBranchHashes : Nat → List Nat → Option (List (List Nat) × List Nat)
  | 0, bs => some ([], bs)
  | n + 1, bs =>
    (readReverse32 bs).bind fun (h, bs) =>
    (readBranchHashes n bs).bind fun (g, bs) =>
    some (h :: g, bs)

/-- `merkleBranch`: varint count, the hashes, and the signed side mask. -/
def parseMerkleBranch (bs : List Nat) : Option (MerkleBranch × List Nat) :=
  (readVarintNum bs).bind fun (branchLen, bs) =>
  (readBranchHashes branchLen bs).bind fun (branchHashes, bs) =>
  (readInt32LE bs).bind fun (branchSideMask, bs) =>
  some (⟨branchLen, branchHashes, branchSideMask⟩, bs)

/-- The AuxPoW payload of `_parseAuxPoW`: coinbase transaction, block
hash, two Merkle branches, then 80 raw bytes re-decoded as the parent
header.  Modelled from the spec: the nested 80-byte parent header is
decoded with AuxPoW parsing disabled (the nested decode is performed by
the `AuxPow` class in `auxpow.js`, which is not among the sources; the
spec fixes that the nested instance suppresses AuxPoW). -/
def parseAuxPow (bs : List Nat) : Option (AuxPow × List Nat) :=
  (getTxn bs).bind fun (coinbaseTxn, bs) =>
  (readBytes 32 bs).bind fun (blockHash, bs) =>
  (parseMerkleBranch bs).bind fun (coinbaseBranch, bs) =>
  (parseMerkleBranch bs).bind fun (blockchainBranch, bs) =>
  (readBytes 80 bs).bind fun (pb, bs) =>
  (parseFixedFields pb).bind fun (parentBlock, _) =>
  some (⟨coinbaseTxn, blockHash, coinbaseBranch, blockchainBranch,
    parentBlock⟩, bs)

/-- `_fromBufferReader`: the fixed fields, then the AuxPoW payload
exactly when bit 8 of the version is set (`_parseAuxPoW` returns
immediately when the bit is clear). -/
def parseHeader (bs : List Nat) : Option (BlockHeader × List Nat) :=
  (parseFixedFields bs).bind fun (p, bs) =>
  if isAuxPowVersion p.version then
    (parseAuxPow bs).bind fun (ap, bs) =>
    some (⟨p, some ap⟩, bs)
  else
    some (⟨p, none⟩, bs)

/-! ## Encoders -/

/-- The fixed-field part of `toBufferWriter`. -/
def encodeFields (h : PureHeader) : List Nat :=
  writeInt32LE h.version ++ h.prevHash ++ h.merkleRoot ++
    writeUInt32LE h.time ++ writeUInt32LE h.bits ++ writeUInt32LE h.nonce

/-- Modelled from the spec: the encoder of one transaction input inside
`AuxPow.toBufferWriter` (`auxpow.js`, not among the sources) is the exact
structural inverse of `getTxIn`. -/
def encodeTxIn (t : TxIn) : List Nat :=
  t.prevOutputHash ++ t.prevOutputIndex ++ writeVarintNum t.scriptLen ++
    t.script ++ writeUInt32LE t.sequence

/-- Modelled from the spec: the structural inverse of `getTxOut`. -/
def encodeTxOut (t : TxOut) : List Nat :=
  t.value ++ writeVarintNum t.scriptLen ++ t.script

/-- Modelled from the spec: the witness section written back over
`txInCount` inputs.  The source keeps only the flat component list, so
the per-input grouping is not recoverable; the inverse writes every
component under the first input and a zero count for each remaining
input, which re-decodes to the same flat list. -/
def encodeWitnesses (txInCount : Nat) (u : List (List Nat)) : List Nat :=
  match txInCount with
  | 0 => []
  | k + 1 =>
      writeVarintNum u.length ++
        (u.map (fun w => writeVarintNum w.length ++ w)).flatten ++
        (List.replicate k [0]).flatten

/-- Modelled from the spec: the structural inverse of `getTxn`, with the
witness flag written as the two bytes `0x00 0x01` exactly when it was
present. -/
def encodeTxn (t : CoinbaseTxn) : List Nat :=
  writeInt32LE t.version ++
    (if t.flag ≠ 0 then [0, 1] else []) ++
    writeVarintNum t.txInCount ++ (t.txIn.map encodeTxIn).flatten ++
    writeVarintNum t.txOutCount ++ (t.txOut.map encodeTxOut).flatten ++
    (if t.flag ≠ 0 then encodeWitnesses t.txInCount t.txWitnesses else []) ++
    writeUInt32LE t.lockTime

/-- Modelled from the spec: the structural inverse of `merkleBranch`;
hashes were stored reversed, so they are written back reversed. -/
def encodeMerkleBranch (m : MerkleBranch) : List Nat :=
  writeVarintNum m.branchLen ++
    (m.branchHashes.map (fun h => h.reverse)).flatten ++
    writeInt32LE m.branchSideMask

/-- Modelled from the spec: `AuxPow.toBufferWriter` is the exact
structural inverse of the decoder. -/
def encodeAuxPow (a : AuxPow) : List Nat :=
  encodeTxn a.coinbaseTxn ++ a.blockHash ++
    encodeMerkleBranch a.coinbaseBranch ++
    encodeMerkleBranch a.blockchainBranch ++ encodeFields a.parentBlock

/-- `toBufferWriter`/`toBuffer`: the fixed fields, then — when
`includeAuxPow` and `isAuxPow()` — the AuxPoW payload.  When the version
bit is set but the stored slot is empty the source would throw on the
`null` property access; that branch is unreachable for decoded headers. -/
def toBuffer (h : BlockHeader) (includeAuxPow : Bool) : List Nat :=
  encodeFields h.toPureHeader ++
    (if includeAuxPow ∧ isAuxPowVersion h.version then
      match h.auxpowF with
      | some a => encodeAuxPow a
      | none => []
    else [])

/-! ## Hash, difficulty, proof of work -/

/-- `_getHash`/the `hash` property: double SHA-256 of the 80-byte
encoding (AuxPoW excluded), then reversed for display.  The digest
primitive is an external collaborator, passed as a function; the
hex-string rendering is injective, so the byte list models the id. -/
def headerId (sha256d : List Nat → List Nat) (h : BlockHeader) : List Nat :=
  (sha256d (toBuffer h false)).reverse

/-- The `BlockHeader` constructor's hash check: when the argument object
carries a `hash` field, `$.checkState` rejects the construction unless
it equals the computed hash. -/
def blockHeaderChecked (sha256d : List Nat → List Nat) (info : BlockHeader)
    (suppliedHash : Option (List Nat)) : Option BlockHeader :=
  match suppliedHash with
  | some s => if headerId sha256d info = s then some info else none
  | none => some info

/-- The `while (mov-- > 0) target = target.mul(new BN(2))` loop of
`getTargetDifficulty`, run a fixed number of times. -/
def mulLoop (target : Nat) : Nat → Nat
  | 0 => target
  | n + 1 => mulLoop (target * 2) n

/-- `getTargetDifficulty` on an explicit `bits` value: mantissa
`bits & 0xffffff`, shift count `8 * ((bits >>> 24) - 3)` as a signed
number, doubling while positive. -/
def getTargetDifficulty (bits : Nat) : Nat :=
  let target := bits % 2 ^ 32 % 2 ^ 24
  let mov : Int := 8 * ((bits % 2 ^ 32 / 2 ^ 24 : Nat) - 3 : Int)
  mulLoop target mov.toNat

/-- The full `getTargetDifficulty(bits)` method including the
`bits = bits || this.bits` argument default: an absent argument and an
explicit falsy `0` both select the header's own stored bits. -/
def getTargetDifficultyMethod (h : BlockHeader) (arg : Option Nat) : Nat :=
  let bits := match arg with
    | some b => if b = 0 then h.bits else b
    | none => h.bits
  getTargetDifficulty bits

/-- `validProofOfWork`: scrypt-hash the parent header's encoding when
`isAuxPow()`, else this header's own encoding, and compare to the target
of the stored bits.  The scrypt primitive is an external collaborator.
Modelled from the spec: the digest is interpreted as a little-endian
unsigned integer (the `BN`-from-buffer wrapper in `crypto/bn.js` is not
among the sources; the spec fixes the little-endian interpretation).
`none` models the `null`-property throw when the version bit is set but
no AuxPoW is stored. -/
def validProofOfWork (scrypt : List Nat → List Nat) (h : BlockHeader) :
    Option Bool :=
  if isAuxPowVersion h.version then
    match h.auxpowF with
    | some a =>
        let pow := bytesToNatLE (scrypt (encodeFields a.parentBlock))
        let target := getTargetDifficultyMethod h none
        some (if target < pow then false else true)
    | none => none
  else
    let pow := bytesToNatLE (scrypt (toBuffer h true))
    let target := getTargetDifficultyMethod h none
    some (if target < pow then false else true)

/-- The `while (decimalShift < 29) difficulty *= 256` loop of
`getDifficulty`. -/
def difficultyShiftUp (d : ℚ) (shift : Nat) : ℚ :=
  if shift < 29 then difficultyShiftUp (d * 256) (shift + 1) else d
termination_by 29 - shift

/-- The `while (decimalShift > 29) difficulty /= 256` loop. -/
def difficultyShiftDown (d : ℚ) (shift : Nat) : ℚ :=
  if shift > 29 then difficultyShiftDown (d / 256) (shift - 1) else d

/-- `Number.prototype.toFixed(19)` followed by `parseFloat`: round to 19
decimal digits, ties away from zero resolved upward. -/
def toFixed19 (q : ℚ) : ℚ :=
  (⌊q * 10 ^ 19 + 1 / 2⌋ : ℚ) / 10 ^ 19

/-- `getDifficulty`: exact rational model of the double-precision
computation.  For the reference inputs proved below every intermediate
double is an exactly representable dyadic rational, so the rational
model agrees bit-for-bit with the floating-point source.  A zero
mantissa (JavaScript `Infinity`) is outside this model. -/
def getDifficulty (bits : Nat) : ℚ :=
  if bits = 0 then 1
  else
    let decimalShift := bits % 2 ^ 32 / 2 ^ 24 % 256
    let difficulty : ℚ := 0xffff / (bits % 2 ^ 32 % 2 ^ 24 : Nat)
    toFixed19 (difficultyShiftDown (difficultyShiftUp difficulty decimalShift)
      decimalShift)


/-! ## Byte-level lemmas -/

theorem validBytes_nil : ValidBytes [] := by
  intro b hb
  cases hb

theorem validBytes_cons {b : Nat} {bs : List Nat} :
    ValidBytes (b :: bs) ↔ b < 256 ∧ ValidBytes bs := by
  constructor
  · intro h
    exact ⟨h b (List.mem_cons_self b bs),
      fun x hx => h x (List.mem_cons_of_mem b hx)⟩
  · rintro ⟨hb, h⟩ x hx
    rcases List.mem_cons.mp hx with rfl | hx
    · exact hb
    · exact h x hx

theorem validBytes_append {a b : List Nat} :
    ValidBytes (a ++ b) ↔ ValidBytes a ∧ ValidBytes b := by
  constructor
  · intro h
    exact ⟨fun x hx => h x (List.mem_append_left _ hx),
      fun x hx => h x (List.mem_append_right _ hx)⟩
  · rintro ⟨ha, hb⟩ x hx
    rcases List.mem_append.mp hx with hx | hx
    · exact ha x hx
    · exact hb x hx

theorem natToBytesLE_length (w n : Nat) : (natToBytesLE w n).length = w := by
  induction w generalizing n with
  | zero => rfl
  | succ w ih => simpa [natToBytesLE] using ih (n / 256)

theorem validBytes_natToBytesLE (w n : Nat) : ValidBytes (natToBytesLE w n) := by
  induction w generalizing n with
  | zero => exact validBytes_nil
  | succ w ih =>
    rw [natToBytesLE, validBytes_cons]
    exact ⟨Nat.mod_lt _ (by omega), ih (n / 256)⟩

theorem writeUInt32LE_eq (n : Nat) : writeUInt32LE n =
    [n % 256, n / 256 % 256, n / 256 / 256 % 256, n / 256 / 256 / 256 % 256] :=
  rfl

theorem readUInt32LE_write {n : Nat} (h : n < 2 ^ 32) (tail : List Nat) :
    readUInt32LE (writeUInt32LE n ++ tail) = some (n, tail) := by
  rw [writeUInt32LE_eq]
  simp only [List.cons_append, List.nil_append, readUInt32LE,
    Option.some.injEq, Prod.mk.injEq, and_true]
  omega

theorem readUInt16LE_write {n : Nat} (h : n < 2 ^ 16) (tail : List Nat) :
    readUInt16LE (natToBytesLE 2 n ++ tail) = some (n, tail) := by
  show readUInt16LE (n % 256 :: n / 256 % 256 :: [] ++ tail) = some (n, tail)
  simp only [List.cons_append, List.nil_append, readUInt16LE,
    Option.some.injEq, Prod.mk.injEq, and_true]
  omega

theorem readUInt64LE_write {n : Nat} (h : n < 2 ^ 64) (tail : List Nat) :
    readUInt64LE (natToBytesLE 8 n ++ tail) = some (n, tail) := by
  show readUInt64LE (n % 256 :: n / 256 % 256 :: n / 256 / 256 % 256 ::
    n / 256 / 256 / 256 % 256 :: n / 256 / 256 / 256 / 256 % 256 ::
    n / 256 / 256 / 256 / 256 / 256 % 256 ::
    n / 256 / 256 / 256 / 256 / 256 / 256 % 256 ::
    n / 256 / 256 / 256 / 256 / 256 / 256 / 256 % 256 :: [] ++ tail) =
    some (n, tail)
  simp only [List.cons_append, List.nil_append, readUInt64LE,
    Option.some.injEq, Prod.mk.injEq, and_true]
  omega

theorem readInt32LE_write {i : Int} (h1 : -2 ^ 31 ≤ i) (h2 : i < 2 ^ 31)
    (tail : List Nat) :
    readInt32LE (writeInt32LE i ++ tail) = some (i, tail) := by
  have hlt : (i % 2 ^ 32).toNat < 2 ^ 32 := by omega
  have hr := readUInt32LE_write hlt tail
  rw [writeUInt32LE] at hr
  rw [writeInt32LE, readInt32LE, hr]
  simp only [toInt32, Option.some.injEq, Prod.mk.injEq, and_true]
  split <;> omega

theorem readVarintNum_write {n : Nat} (h : n < 2 ^ 53) (tail : List Nat) :
    readVarintNum (writeVarintNum n ++ tail) = some (n, tail) := by
  rw [writeVarintNum]
  by_cases h1 : n < 0xfd
  · rw [if_pos h1]
    simp only [List.cons_append, List.nil_append, readVarintNum]
    rw [if_neg (by omega : ¬n = 0xfd), if_neg (by omega : ¬n = 0xfe),
      if_neg (by omega : ¬n = 0xff)]
  · rw [if_neg h1]
    by_cases h2 : n < 2 ^ 16
    · rw [if_pos h2]
      simp [readVarintNum, readUInt16LE_write h2 tail]
    · rw [if_neg h2]
      by_cases h3 : n < 2 ^ 32
      · rw [if_pos h3]
        have hr := readUInt32LE_write h3 tail
        rw [writeUInt32LE] at hr
        simp [readVarintNum, hr]
      · rw [if_neg h3]
        simp [readVarintNum,
          readUInt64LE_write (show n < 2 ^ 64 by omega) tail]
        omega

theorem readBytes_write {v : List Nat} (tail : List Nat) :
    readBytes v.length (v ++ tail) = some (v, tail) := by
  rw [readBytes, if_pos (by simp)]
  simp

theorem readBytes_eq {n : Nat} {bs v r : List Nat}
    (h : readBytes n bs = some (v, r)) :
    v.length = n ∧ bs = v ++ r := by
  rw [readBytes] at h
  split at h
  · rename_i hle
    simp only [Option.some.injEq, Prod.mk.injEq] at h
    obtain ⟨rfl, rfl⟩ := h
    exact ⟨List.length_take_of_le hle, (List.take_append_drop n bs).symm⟩
  · cases h

theorem readBytes_valid {n : Nat} {bs v r : List Nat}
    (h : readBytes n bs = some (v, r)) (hv : ValidBytes bs) :
    ValidBytes v ∧ ValidBytes r := by
  obtain ⟨-, rfl⟩ := readBytes_eq h
  exact validBytes_append.mp hv

theorem readUInt16LE_bound {bs : List Nat} {n : Nat} {r : List Nat}
    (h : readUInt16LE bs = some (n, r)) (hv : ValidBytes bs) :
    n < 2 ^ 16 ∧ ValidBytes r := by
  rcases bs with _ | ⟨b0, _ | ⟨b1, r'⟩⟩ <;>
    simp only [readUInt16LE] at h <;> cases h
  rw [validBytes_cons, validBytes_cons] at hv
  exact ⟨by omega, hv.2.2⟩

theorem readUInt16BE_bound {bs : List Nat} {n : Nat} {r : List Nat}
    (h : readUInt16BE bs = some (n, r)) (hv : ValidBytes bs) :
    n < 2 ^ 16 ∧ ValidBytes r := by
  rcases bs with _ | ⟨b0, _ | ⟨b1, r'⟩⟩ <;>
    simp only [readUInt16BE] at h <;> cases h
  rw [validBytes_cons, validBytes_cons] at hv
  exact ⟨by omega, hv.2.2⟩

theorem readUInt32LE_bound {bs : List Nat} {n : Nat} {r : List Nat}
    (h : readUInt32LE bs = some (n, r)) (hv : ValidBytes bs) :
    n < 2 ^ 32 ∧ ValidBytes r := by
  rcases bs with _ | ⟨b0, _ | ⟨b1, _ | ⟨b2, _ | ⟨b3, r'⟩⟩⟩⟩ <;>
    simp only [readUInt32LE] at h <;> cases h
  rw [validBytes_cons, validBytes_cons, validBytes_cons, validBytes_cons] at hv
  exact ⟨by omega, hv.2.2.2.2⟩

theorem readUInt64LE_bound {bs : List Nat} {n : Nat} {r : List Nat}
    (h : readUInt64LE bs = some (n, r)) (hv : ValidBytes bs) :
    n < 2 ^ 64 ∧ ValidBytes r := by
  rcases bs with _ | ⟨b0, _ | ⟨b1, _ | ⟨b2, _ | ⟨b3, _ | ⟨b4, _ | ⟨b5,
    _ | ⟨b6, _ | ⟨b7, r'⟩⟩⟩⟩⟩⟩⟩⟩ <;> simp only [readUInt64LE] at h <;>
    cases h
  rw [validBytes_cons, validBytes_cons, validBytes_cons, validBytes_cons,
    validBytes_cons, validBytes_cons, validBytes_cons, validBytes_cons] at hv
  refine ⟨by omega, hv.2.2.2.2.2.2.2.2⟩

theorem readInt32LE_bound {bs : List Nat} {i : Int} {r : List Nat}
    (h : readInt32LE bs = some (i, r)) (hv : ValidBytes bs) :
    -2 ^ 31 ≤ i ∧ i < 2 ^ 31 ∧ ValidBytes r := by
  rw [readInt32LE] at h
  split at h
  · rename_i n r' hu
    simp only [Option.some.injEq, Prod.mk.injEq] at h
    obtain ⟨rfl, rfl⟩ := h
    obtain ⟨hn, hr⟩ := readUInt32LE_bound hu hv
    rw [toInt32]
    split <;> exact ⟨by omega, by omega, hr⟩
  · cases h

theorem readVarintNum_bound {bs : List Nat} {n : Nat} {r : List Nat}
    (h : readVarintNum bs = some (n, r)) (hv : ValidBytes bs) :
    n < 2 ^ 53 ∧ ValidBytes r := by
  rcases bs with _ | ⟨b, tl⟩
  · simp only [readVarintNum] at h
    cases h
  rw [validBytes_cons] at hv
  rw [readVarintNum] at h
  split at h
  · obtain ⟨hn, hr⟩ := readUInt16LE_bound h hv.2
    exact ⟨by omega, hr⟩
  · split at h
    · obtain ⟨hn, hr⟩ := readUInt32LE_bound h hv.2
      exact ⟨by omega, hr⟩
    · split at h
      · split at h
        · rename_i m r hu
          split at h
          · simp only [Option.some.injEq, Prod.mk.injEq] at h
            obtain ⟨rfl, rfl⟩ := h
            rename_i hm
            exact ⟨hm, (readUInt64LE_bound hu hv.2).2⟩
          · cases h
        · cases h
      · simp only [Option.some.injEq, Prod.mk.injEq] at h
        obtain ⟨rfl, rfl⟩ := h
        exact ⟨by omega, hv.2⟩

theorem readReverse32_eq {bs v r : List Nat}
    (h : readReverse32 bs = some (v, r)) :
    v.length = 32 ∧ bs = v.reverse ++ r := by
  rw [readReverse32] at h
  split at h
  · rename_i w r' hb
    simp only [Option.some.injEq, Prod.mk.injEq] at h
    obtain ⟨rfl, rfl⟩ := h
    obtain ⟨hlen, rfl⟩ := readBytes_eq hb
    simp [hlen]
  · cases h

theorem readReverse32_write {v : List Nat} (hlen : v.length = 32)
    (tail : List Nat) :
    readReverse32 (v.reverse ++ tail) = some (v, tail) := by
  have hb : readBytes 32 (v.reverse ++ tail) = some (v.reverse, tail) := by
    have := readBytes_write (v := v.reverse) tail
    rwa [List.length_reverse, hlen] at this
  rw [readReverse32, hb]
  simp

theorem readUInt16BE_len {bs : List Nat} {n : Nat} {r : List Nat}
    (h : readUInt16BE bs = some (n, r)) : bs.length = 2 + r.length := by
  rcases bs with _ | ⟨b0, _ | ⟨b1, r'⟩⟩ <;>
    simp only [readUInt16BE] at h <;> cases h
  simp
  omega

theorem readUInt16LE_len {bs : List Nat} {n : Nat} {r : List Nat}
    (h : readUInt16LE bs = some (n, r)) : bs.length = 2 + r.length := by
  rcases bs with _ | ⟨b0, _ | ⟨b1, r'⟩⟩ <;>
    simp only [readUInt16LE] at h <;> cases h
  simp
  omega

theorem readUInt32LE_len {bs : List Nat} {n : Nat} {r : List Nat}
    (h : readUInt32LE bs = some (n, r)) : bs.length = 4 + r.length := by
  rcases bs with _ | ⟨b0, _ | ⟨b1, _ | ⟨b2, _ | ⟨b3, r'⟩⟩⟩⟩ <;>
    simp only [readUInt32LE] at h <;> cases h
  simp
  omega

theorem readUInt64LE_len {bs : List Nat} {n : Nat} {r : List Nat}
    (h : readUInt64LE bs = some (n, r)) : bs.length = 8 + r.length := by
  rcases bs with _ | ⟨b0, _ | ⟨b1, _ | ⟨b2, _ | ⟨b3, _ | ⟨b4, _ | ⟨b5,
    _ | ⟨b6, _ | ⟨b7, r'⟩⟩⟩⟩⟩⟩⟩⟩ <;> simp only [readUInt64LE] at h <;>
    cases h
  simp
  omega

theorem readInt32LE_len {bs : List Nat} {i : Int} {r : List Nat}
    (h : readInt32LE bs = some (i, r)) : bs.length = 4 + r.length := by
  rw [readInt32LE] at h
  split at h
  · rename_i n r' hu
    simp only [Option.some.injEq, Prod.mk.injEq] at h
    obtain ⟨rfl, rfl⟩ := h
    exact readUInt32LE_len hu
  · cases h

theorem readVarintNum_len {bs : List Nat} {n : Nat} {r : List Nat}
    (h : readVarintNum bs = some (n, r)) : r.length < bs.length := by
  rcases bs with _ | ⟨b, tl⟩
  · simp only [readVarintNum] at h
    cases h
  rw [readVarintNum] at h
  split at h
  · have := readUInt16LE_len h
    simp at this ⊢
    omega
  · split at h
    · have := readUInt32LE_len h
      simp at this ⊢
      omega
    · split at h
      · split at h
        · rename_i m r hu
          split at h
          · simp only [Option.some.injEq, Prod.mk.injEq] at h
            obtain ⟨rfl, rfl⟩ := h
            have := readUInt64LE_len hu
            simp at this ⊢
            omega
          · cases h
        · cases h
      · simp only [Option.some.injEq, Prod.mk.injEq] at h
        obtain ⟨rfl, rfl⟩ := h
        simp

/-! ## Round-trip lemmas for the AuxPoW sub-parsers -/

theorem getTxIn_rt {bs : List Nat} {t : TxIn} {r : List Nat}
    (h : getTxIn bs = some (t, r)) (hv : ValidBytes bs) :
    ValidBytes r ∧ r.length ≤ bs.length ∧
      ∀ tail, getTxIn (encodeTxIn t ++ tail) = some (t, tail) := by
  simp only [getTxIn, Option.bind_eq_some] at h
  obtain ⟨⟨hsh, bs1⟩, h1, h⟩ := h
  obtain ⟨⟨idx, bs2⟩, h2, h⟩ := h
  obtain ⟨⟨slen, bs3⟩, h3, h⟩ := h
  obtain ⟨⟨scr, bs4⟩, h4, h⟩ := h
  obtain ⟨⟨seq, bs5⟩, h5, h⟩ := h
  simp only [Option.some.injEq, Prod.mk.injEq] at h
  obtain ⟨rfl, rfl⟩ := h
  dsimp only at *
  obtain ⟨hl1, rfl⟩ := readBytes_eq h1
  obtain ⟨hv_h, hv1⟩ := validBytes_append.mp hv
  obtain ⟨hl2, rfl⟩ := readBytes_eq h2
  obtain ⟨hv_i, hv2⟩ := validBytes_append.mp hv1
  obtain ⟨hslen, hv3⟩ := readVarintNum_bound (n := slen) (r := bs3) h3 hv2
  have hlen3 := readVarintNum_len (n := slen) (r := bs3) h3
  obtain ⟨hl4, rfl⟩ := readBytes_eq h4
  obtain ⟨hv_s, hv4⟩ := validBytes_append.mp hv3
  obtain ⟨hseq, hv5⟩ := readUInt32LE_bound (n := seq) (r := bs5) h5 hv4
  have hlen5 := readUInt32LE_len (n := seq) (r := bs5) h5
  have e1 : ∀ tl : List Nat, readBytes 32 (hsh ++ tl) = some (hsh, tl) := by
    intro tl
    have := readBytes_write (v := hsh) tl
    rwa [hl1] at this
  have e2 : ∀ tl : List Nat, readBytes 4 (idx ++ tl) = some (idx, tl) := by
    intro tl
    have := readBytes_write (v := idx) tl
    rwa [hl2] at this
  have e4 : ∀ tl : List Nat, readBytes slen (scr ++ tl) = some (scr, tl) := by
    intro tl
    have := readBytes_write (v := scr) tl
    rwa [hl4] at this
  refine ⟨hv5, ?_, ?_⟩
  · simp only [List.length_append] at hlen3 ⊢
    omega
  · intro tail
    simp only [encodeTxIn, List.append_assoc, getTxIn, e1, e2,
      readVarintNum_write hslen, e4, readUInt32LE_write hseq,
      Option.some_bind]

theorem readTxIns_rt {n : Nat} {bs : List Nat} {l : List TxIn}
    {r : List Nat}
    (h : readTxIns n bs = some (l, r)) (hv : ValidBytes bs) :
    ValidBytes r ∧ r.length ≤ bs.length ∧
      ∀ tail, readTxIns n ((l.map encodeTxIn).flatten ++ tail) =
        some (l, tail) := by
  induction n generalizing bs l r with
  | zero =>
    simp only [readTxIns, Option.some.injEq, Prod.mk.injEq] at h
    obtain ⟨rfl, rfl⟩ := h
    exact ⟨hv, le_rfl, fun tail => by simp [readTxIns]⟩
  | succ n ih =>
    simp only [readTxIns, Option.bind_eq_some] at h
    obtain ⟨⟨t, bs1⟩, h1, h⟩ := h
    obtain ⟨⟨l', bs2⟩, h2, h⟩ := h
    simp only [Option.some.injEq, Prod.mk.injEq] at h
    obtain ⟨rfl, rfl⟩ := h
    dsimp only at *
    obtain ⟨hv1, hle1, e1⟩ := getTxIn_rt (t := t) (r := bs1) h1 hv
    obtain ⟨hv2, hle2, e2⟩ := ih (l := l') (r := bs2) h2 hv1
    refine ⟨hv2, by omega, ?_⟩
    intro tail
    simp only [List.map_cons, List.flatten_cons, List.append_assoc, readTxIns,
      e1, Option.some_bind, e2]

theorem getTxOut_rt {bs : List Nat} {t : TxOut} {r : List Nat}
    (h : getTxOut bs = some (t, r)) (hv : ValidBytes bs) :
    ValidBytes r ∧ r.length ≤ bs.length ∧
      ∀ tail, getTxOut (encodeTxOut t ++ tail) = some (t, tail) := by
  simp only [getTxOut, Option.bind_eq_some] at h
  obtain ⟨⟨v, bs1⟩, h1, h⟩ := h
  obtain ⟨⟨plen, bs2⟩, h2, h⟩ := h
  obtain ⟨⟨pscr, bs3⟩, h3, h⟩ := h
  simp only [Option.some.injEq, Prod.mk.injEq] at h
  obtain ⟨rfl, rfl⟩ := h
  dsimp only at *
  obtain ⟨hl1, rfl⟩ := readBytes_eq h1
  obtain ⟨hv_v, hv1⟩ := validBytes_append.mp hv
  obtain ⟨hplen, hv2⟩ := readVarintNum_bound (n := plen) (r := bs2) h2 hv1
  have hlen2 := readVarintNum_len (n := plen) (r := bs2) h2
  obtain ⟨hl3, rfl⟩ := readBytes_eq h3
  obtain ⟨hv_s, hv3⟩ := validBytes_append.mp hv2
  have e1 : ∀ tl : List Nat, readBytes 8 (v ++ tl) = some (v, tl) := by
    intro tl
    have := readBytes_write (v := v) tl
    rwa [hl1] at this
  have e3 : ∀ tl : List Nat, readBytes plen (pscr ++ tl) = some (pscr, tl) := by
    intro tl
    have := readBytes_write (v := pscr) tl
    rwa [hl3] at this
  refine ⟨hv3, ?_, ?_⟩
  · simp only [List.length_append] at hlen2 ⊢
    omega
  · intro tail
    simp only [encodeTxOut, List.append_assoc, getTxOut, e1,
      readVarintNum_write hplen, e3, Option.some_bind]

theorem readTxOuts_rt {n : Nat} {bs : List Nat} {l : List TxOut}
    {r : List Nat}
    (h : readTxOuts n bs = some (l, r)) (hv : ValidBytes bs) :
    ValidBytes r ∧ r.length ≤ bs.length ∧
      ∀ tail, readTxOuts n ((l.map encodeTxOut).flatten ++ tail) =
        some (l, tail) := by
  induction n generalizing bs l r with
  | zero =>
    simp only [readTxOuts, Option.some.injEq, Prod.mk.injEq] at h
    obtain ⟨rfl, rfl⟩ := h
    exact ⟨hv, le_rfl, fun tail => by simp [readTxOuts]⟩
  | succ n ih =>
    simp only [readTxOuts, Option.bind_eq_some] at h
    obtain ⟨⟨t, bs1⟩, h1, h⟩ := h
    obtain ⟨⟨l', bs2⟩, h2, h⟩ := h
    simp only [Option.some.injEq, Prod.mk.injEq] at h
    obtain ⟨rfl, rfl⟩ := h
    dsimp only at *
    obtain ⟨hv1, hle1, e1⟩ := getTxOut_rt (t := t) (r := bs1) h1 hv
    obtain ⟨hv2, hle2, e2⟩ := ih (l := l') (r := bs2) h2 hv1
    refine ⟨hv2, by omega, ?_⟩
    intro tail
    simp only [List.map_cons, List.flatten_cons, List.append_assoc, readTxOuts,
      e1, Option.some_bind, e2]

theorem readVarintNum_small {b : Nat} (hb : b < 0xfd) (r : List Nat) :
    readVarintNum (b :: r) = some (b, r) := by
  rw [readVarintNum, if_neg (by omega : ¬b = 0xfd),
    if_neg (by omega : ¬b = 0xfe), if_neg (by omega : ¬b = 0xff)]

theorem readComponents_encode {u : List (List Nat)}
    (hw : ∀ w ∈ u, w.length < 2 ^ 53) (tail : List Nat) :
    readComponents u.length
      ((u.map (fun w => writeVarintNum w.length ++ w)).flatten ++ tail) =
      some (u, tail) := by
  induction u with
  | nil => simp [readComponents]
  | cons w u ih =>
    have hW : w.length < 2 ^ 53 := hw w (List.mem_cons_self _ _)
    have ih' := ih fun x hx => hw x (List.mem_cons_of_mem _ hx)
    simp only [List.map_cons, List.flatten_cons, List.append_assoc,
      List.length_cons, readComponents, readVarintNum_write hW,
      Option.some_bind, readBytes_write, ih']

theorem readComponents_rt {n : Nat} {bs : List Nat} {u : List (List Nat)}
    {r : List Nat}
    (h : readComponents n bs = some (u, r)) (hv : ValidBytes bs) :
    ValidBytes r ∧ u.length = n ∧ n + r.length ≤ bs.length ∧
      ∀ w ∈ u, w.length < 2 ^ 53 := by
  induction n generalizing bs u r with
  | zero =>
    simp only [readComponents, Option.some.injEq, Prod.mk.injEq] at h
    obtain ⟨rfl, rfl⟩ := h
    exact ⟨hv, rfl, by omega, by simp⟩
  | succ n ih =>
    simp only [readComponents, Option.bind_eq_some] at h
    obtain ⟨⟨clen, bs1⟩, h1, h⟩ := h
    obtain ⟨⟨w, bs2⟩, h2, h⟩ := h
    obtain ⟨⟨u', bs3⟩, h3, h⟩ := h
    simp only [Option.some.injEq, Prod.mk.injEq] at h
    obtain ⟨rfl, rfl⟩ := h
    dsimp only at *
    obtain ⟨hclen, hv1⟩ := readVarintNum_bound (n := clen) (r := bs1) h1 hv
    have hlen1 := readVarintNum_len (n := clen) (r := bs1) h1
    obtain ⟨hl2, rfl⟩ := readBytes_eq h2
    obtain ⟨hv_w, hv2⟩ := validBytes_append.mp hv1
    obtain ⟨hv3, hwl, hcnt, hws⟩ := ih (u := u') (r := bs3) h3 hv2
    refine ⟨hv3, by simp [hwl], ?_, ?_⟩
    · simp only [List.length_append] at hlen1 ⊢
      omega
    · intro x hx
      rcases List.mem_cons.mp hx with rfl | hx
      · omega
      · exact hws x hx

theorem readWitnessGroups_zeros (j : Nat) (tail : List Nat) :
    readWitnessGroups j ((List.replicate j ([0] : List Nat)).flatten ++ tail) =
      some ([], tail) := by
  induction j with
  | zero => simp [readWitnessGroups]
  | succ j ih =>
    simp only [List.replicate_succ, List.flatten_cons, List.cons_append,
      List.nil_append, readWitnessGroups,
      readVarintNum_small (b := 0) (by omega), Option.some_bind,
      readComponents, ih]

theorem readWitnessGroups_encode {k : Nat} {u : List (List Nat)}
    (hw : ∀ w ∈ u, w.length < 2 ^ 53) (hlen : u.length < 2 ^ 53)
    (tail : List Nat) :
    readWitnessGroups (k + 1) (encodeWitnesses (k + 1) u ++ tail) =
      some (u, tail) := by
  have ec := readComponents_encode hw
    ((List.replicate k ([0] : List Nat)).flatten ++ tail)
  simp only [encodeWitnesses, List.append_assoc, readWitnessGroups,
    readVarintNum_write hlen, Option.some_bind, ec,
    readWitnessGroups_zeros, List.append_nil]

theorem readWitnessGroups_encode_full {k : Nat} {u : List (List Nat)}
    (hw : ∀ w ∈ u, w.length < 2 ^ 53) (hlen : u.length < 2 ^ 53)
    (hk0 : k = 0 → u = []) (tail : List Nat) :
    readWitnessGroups k (encodeWitnesses k u ++ tail) = some (u, tail) := by
  cases k with
  | zero =>
    obtain rfl := hk0 rfl
    simp [encodeWitnesses, readWitnessGroups]
  | succ k => exact readWitnessGroups_encode hw hlen tail

theorem readWitnessGroups_rt {k : Nat} {bs : List Nat} {u : List (List Nat)}
    {r : List Nat}
    (h : readWitnessGroups k bs = some (u, r)) (hv : ValidBytes bs) :
    ValidBytes r ∧ u.length + r.length ≤ bs.length ∧
      (∀ w ∈ u, w.length < 2 ^ 53) ∧ (k = 0 → u = []) := by
  induction k generalizing bs u r with
  | zero =>
    simp only [readWitnessGroups, Option.some.injEq, Prod.mk.injEq] at h
    obtain ⟨rfl, rfl⟩ := h
    exact ⟨hv, by simp, by simp, fun _ => rfl⟩
  | succ k ih =>
    simp only [readWitnessGroups, Option.bind_eq_some] at h
    obtain ⟨⟨cnt, bs1⟩, h1, h⟩ := h
    obtain ⟨⟨g, bs2⟩, h2, h⟩ := h
    obtain ⟨⟨more, bs3⟩, h3, h⟩ := h
    simp only [Option.some.injEq, Prod.mk.injEq] at h
    obtain ⟨rfl, rfl⟩ := h
    dsimp only at *
    obtain ⟨hcnt53, hv1⟩ := readVarintNum_bound (n := cnt) (r := bs1) h1 hv
    have hlen1 := readVarintNum_len (n := cnt) (r := bs1) h1
    obtain ⟨hv2, hgl, hgcnt, hgw⟩ := readComponents_rt (u := g) (r := bs2)
      h2 hv1
    obtain ⟨hv3, hmcnt, hmw, -⟩ := ih (u := more) (r := bs3) h3 hv2
    refine ⟨hv3, ?_, ?_, fun hk => by cases hk⟩
    · simp only [List.length_append]
      omega
    · intro x hx
      rcases List.mem_append.mp hx with hx | hx
      · exact hgw x hx
      · exact hmw x hx

theorem readBranchHashes_encode {g : List (List Nat)}
    (hlen : ∀ x ∈ g, x.length = 32) (tail : List Nat) :
    readBranchHashes g.length
      ((g.map (fun x => x.reverse)).flatten ++ tail) = some (g, tail) := by
  induction g with
  | nil => simp [readBranchHashes]
  | cons x g ih =>
    have hX : x.length = 32 := hlen x (List.mem_cons_self _ _)
    have ih' := ih fun y hy => hlen y (List.mem_cons_of_mem _ hy)
    simp only [List.map_cons, List.flatten_cons, List.append_assoc,
      List.length_cons, readBranchHashes, readReverse32_write hX,
      Option.some_bind, ih']

theorem readBranchHashes_rt {n : Nat} {bs : List Nat} {g : List (List Nat)}
    {r : List Nat}
    (h : readBranchHashes n bs = some (g, r)) (hv : ValidBytes bs) :
    ValidBytes r ∧ g.length = n ∧ 32 * n + r.length ≤ bs.length ∧
      ∀ x ∈ g, x.length = 32 := by
  induction n generalizing bs g r with
  | zero =>
    simp only [readBranchHashes, Option.some.injEq, Prod.mk.injEq] at h
    obtain ⟨rfl, rfl⟩ := h
    exact ⟨hv, rfl, by omega, by simp⟩
  | succ n ih =>
    simp only [readBranchHashes, Option.bind_eq_some] at h
    obtain ⟨⟨x, bs1⟩, h1, h⟩ := h
    obtain ⟨⟨g', bs2⟩, h2, h⟩ := h
    simp only [Option.some.injEq, Prod.mk.injEq] at h
    obtain ⟨rfl, rfl⟩ := h
    dsimp only at *
    obtain ⟨hxl, rfl⟩ := readReverse32_eq h1
    obtain ⟨hv_x, hv1⟩ := validBytes_append.mp hv
    obtain ⟨hv2, hsl, hcnt, hhs⟩ := ih (g := g') (r := bs2) h2 hv1
    refine ⟨hv2, by simp [hsl], ?_, ?_⟩
    · simp only [List.length_append, List.length_reverse, hxl]
      omega
    · intro y hy
      rcases List.mem_cons.mp hy with rfl | hy
      · exact hxl
      · exact hhs y hy

theorem parseMerkleBranch_rt {bs : List Nat} {m : MerkleBranch}
    {r : List Nat}
    (h : parseMerkleBranch bs = some (m, r)) (hv : ValidBytes bs) :
    ValidBytes r ∧ r.length ≤ bs.length ∧
      ∀ tail, parseMerkleBranch (encodeMerkleBranch m ++ tail) =
        some (m, tail) := by
  simp only [parseMerkleBranch, Option.bind_eq_some] at h
  obtain ⟨⟨blen, bs1⟩, h1, h⟩ := h
  obtain ⟨⟨g, bs2⟩, h2, h⟩ := h
  obtain ⟨⟨mask, bs3⟩, h3, h⟩ := h
  simp only [Option.some.injEq, Prod.mk.injEq] at h
  obtain ⟨rfl, rfl⟩ := h
  dsimp only at *
  obtain ⟨hblen, hv1⟩ := readVarintNum_bound (n := blen) (r := bs1) h1 hv
  have hlen1 := readVarintNum_len (n := blen) (r := bs1) h1
  obtain ⟨hv2, hsl, hcnt, hhs⟩ := readBranchHashes_rt (g := g) (r := bs2)
    h2 hv1
  obtain ⟨hm1, hm2, hv3⟩ := readInt32LE_bound (i := mask) (r := bs3) h3 hv2
  have hlen3 := readInt32LE_len (i := mask) (r := bs3) h3
  refine ⟨hv3, by omega, ?_⟩
  intro tail
  have eh := readBranchHashes_encode hhs (writeInt32LE mask ++ tail)
  rw [hsl] at eh
  simp only [encodeMerkleBranch, List.append_assoc, parseMerkleBranch,
    readVarintNum_write hblen, Option.some_bind, eh,
    readInt32LE_write hm1 hm2, Option.some_bind]

theorem peekUInt16BE_01 (X : List Nat) :
    peekUInt16BE (0 :: 1 :: X) = some 1 := rfl

theorem readUInt16BE_01 (X : List Nat) :
    readUInt16BE (0 :: 1 :: X) = some (1, X) := rfl

theorem peek_consistent {bs : List Nat} {p f : Nat} {r : List Nat}
    (hp : peekUInt16BE bs = some p)
    (hr : readUInt16BE bs = some (f, r)) : f = p := by
  rcases bs with _ | ⟨b0, _ | ⟨b1, tl⟩⟩ <;>
    simp only [peekUInt16BE, readUInt16BE] at hp hr
  · cases hp
  · cases hp
  · cases hp
    cases hr
    rfl

theorem writeVarintNum_head_ne_one {n : Nat} (hn : n ≠ 1) :
    ∃ h0 t, writeVarintNum n = h0 :: t ∧ h0 ≠ 1 := by
  rw [writeVarintNum]
  split_ifs with hA hB hC
  · exact ⟨n, [], rfl, hn⟩
  · exact ⟨0xfd, _, rfl, by omega⟩
  · exact ⟨0xfe, _, rfl, by omega⟩
  · exact ⟨0xff, _, rfl, by omega⟩

theorem peekUInt16BE_varint {n : Nat} {X : List Nat} (hne : X ≠ [])
    (h1 : n = 0 → ∀ d X', X = d :: X' → d ≠ 1) :
    ∃ q, peekUInt16BE (writeVarintNum n ++ X) = some q ∧ q ≠ 1 := by
  rcases X with _ | ⟨d, X'⟩
  · exact absurd rfl hne
  rw [writeVarintNum]
  split_ifs with hA hB hC
  · refine ⟨n * 256 + d, rfl, ?_⟩
    by_cases hn0 : n = 0
    · have hd := h1 hn0 d X' rfl
      omega
    · omega
  · exact ⟨0xfd * 256 + n % 256, rfl, by omega⟩
  · exact ⟨0xfe * 256 + n % 256, rfl, by omega⟩
  · exact ⟨0xff * 256 + n % 256, rfl, by omega⟩

theorem getTxn_rt {bs : List Nat} {t : CoinbaseTxn} {r : List Nat}
    (h : getTxn bs = some (t, r)) (hv : ValidBytes bs)
    (hbs : bs.length < 2 ^ 53)
    (hex : ¬(t.flag = 0 ∧ t.txInCount = 0 ∧ t.txOutCount = 1)) :
    ValidBytes r ∧ r.length ≤ bs.length ∧
      ∀ tail, getTxn (encodeTxn t ++ tail) = some (t, tail) := by
  simp only [getTxn, Option.bind_eq_some] at h
  obtain ⟨⟨ver, bs1⟩, h1, h⟩ := h
  obtain ⟨p, hp, h⟩ := h
  obtain ⟨⟨flag, bs2⟩, hflag, h⟩ := h
  obtain ⟨⟨inCnt, bs3⟩, h3, h⟩ := h
  obtain ⟨⟨ins, bs4⟩, h4, h⟩ := h
  obtain ⟨⟨outCnt, bs5⟩, h5, h⟩ := h
  obtain ⟨⟨outs, bs6⟩, h6, h⟩ := h
  obtain ⟨⟨wit, bs7⟩, h7, h⟩ := h
  obtain ⟨⟨lock, bs8⟩, h8, h⟩ := h
  simp only [Option.some.injEq, Prod.mk.injEq] at h
  obtain ⟨rfl, rfl⟩ := h
  dsimp only at *
  obtain ⟨hver_lo, hver_hi, hv1⟩ := readInt32LE_bound (i := ver) (r := bs1)
    h1 hv
  have hlen1 := readInt32LE_len (i := ver) (r := bs1) h1
  by_cases hp1 : p = 1
  · -- the two peeked bytes are 0x00 0x01: the witness flag is consumed
    subst hp1
    rw [if_pos rfl] at hflag
    have hf1 : flag = 1 := peek_consistent hp hflag
    subst hf1
    obtain ⟨-, hv2⟩ := readUInt16BE_bound hflag hv1
    have hlen2 := readUInt16BE_len hflag
    obtain ⟨hin53, hv3⟩ := readVarintNum_bound (n := inCnt) (r := bs3) h3 hv2
    have hlen3 := readVarintNum_len (n := inCnt) (r := bs3) h3
    obtain ⟨hv4, hlen4, eIns⟩ := readTxIns_rt (l := ins) (r := bs4) h4 hv3
    obtain ⟨hout53, hv5⟩ := readVarintNum_bound (n := outCnt) (r := bs5)
      h5 hv4
    have hlen5 := readVarintNum_len (n := outCnt) (r := bs5) h5
    obtain ⟨hv6, hlen6, eOuts⟩ := readTxOuts_rt (l := outs) (r := bs6)
      h6 hv5
    have h7' : readWitnessGroups inCnt bs6 = some (wit, bs7) := by
      simpa using h7
    obtain ⟨hv7, hwcnt, hww, hwk0⟩ := readWitnessGroups_rt (u := wit)
      (r := bs7) h7' hv6
    obtain ⟨hlock, hv8⟩ := readUInt32LE_bound (n := lock) (r := bs8) h8 hv7
    have hlen8 := readUInt32LE_len (n := lock) (r := bs8) h8
    refine ⟨hv8, by omega, ?_⟩
    intro tail
    have hwlt : wit.length < 2 ^ 53 := by omega
    have eWit := readWitnessGroups_encode_full (k := inCnt) hww hwlt hwk0
      (writeUInt32LE lock ++ tail)
    have eVer := readInt32LE_write hver_lo hver_hi
    simp only [encodeTxn, ne_eq, List.append_assoc, List.cons_append,
      List.nil_append]
    simp [getTxn, eVer, peekUInt16BE_01, readUInt16BE_01,
      readVarintNum_write hin53, eIns, readVarintNum_write hout53, eOuts,
      eWit, readUInt32LE_write hlock]
  · -- the peek is not 1: no witness flag
    rw [if_neg hp1] at hflag
    simp only [Option.some.injEq, Prod.mk.injEq] at hflag
    obtain ⟨rfl, rfl⟩ := hflag
    obtain ⟨hin53, hv3⟩ := readVarintNum_bound (n := inCnt) (r := bs3) h3 hv1
    have hlen3 := readVarintNum_len (n := inCnt) (r := bs3) h3
    obtain ⟨hv4, hlen4, eIns⟩ := readTxIns_rt (l := ins) (r := bs4) h4 hv3
    obtain ⟨hout53, hv5⟩ := readVarintNum_bound (n := outCnt) (r := bs5)
      h5 hv4
    have hlen5 := readVarintNum_len (n := outCnt) (r := bs5) h5
    obtain ⟨hv6, hlen6, eOuts⟩ := readTxOuts_rt (l := outs) (r := bs6)
      h6 hv5
    rw [if_neg (by simp : ¬((0 : Nat) ≠ 0))] at h7
    simp only [Option.some.injEq, Prod.mk.injEq] at h7
    obtain ⟨rfl, rfl⟩ := h7
    obtain ⟨hlock, hv8⟩ := readUInt32LE_bound (n := lock) (r := bs8) h8 hv6
    have hlen8 := readUInt32LE_len (n := lock) (r := bs8) h8
    have houtne : inCnt = 0 → outCnt ≠ 1 := by
      intro h0 hone
      exact hex ⟨rfl, h0, hone⟩
    refine ⟨hv8, by omega, ?_⟩
    intro tail
    have hne : ((ins.map encodeTxIn).flatten ++ (writeVarintNum outCnt ++
        ((outs.map encodeTxOut).flatten ++ (writeUInt32LE lock ++ tail)))) ≠
          [] := by
      apply List.length_pos.mp
      simp only [List.length_append, writeUInt32LE, natToBytesLE_length]
      omega
    have hhead : inCnt = 0 → ∀ d X',
        ((ins.map encodeTxIn).flatten ++ (writeVarintNum outCnt ++
          ((outs.map encodeTxOut).flatten ++ (writeUInt32LE lock ++ tail)))) =
          d :: X' → d ≠ 1 := by
      intro h0 d X' hdx
      rw [h0] at h4
      simp only [readTxIns, Option.some.injEq, Prod.mk.injEq] at h4
      obtain ⟨rfl, -⟩ := h4
      obtain ⟨h0b, tb, hwv, hh0⟩ := writeVarintNum_head_ne_one (houtne h0)
      rw [hwv] at hdx
      simp only [List.map_nil, List.flatten_nil, List.nil_append,
        List.cons_append] at hdx
      cases hdx
      exact hh0
    obtain ⟨q, hq, hq1⟩ := peekUInt16BE_varint (n := inCnt) hne hhead
    have eVer := readInt32LE_write hver_lo hver_hi
    simp only [encodeTxn, ne_eq, List.append_assoc, List.cons_append,
      List.nil_append]
    norm_num
    simp only [getTxn, eVer, Option.some_bind]
    rw [hq]
    simp only [Option.some_bind]
    rw [if_neg hq1]
    simp [readVarintNum_write hin53, eIns, readVarintNum_write hout53, eOuts,
      readUInt32LE_write hlock]

theorem encodeFields_length {p : PureHeader} (h1 : p.prevHash.length = 32)
    (h2 : p.merkleRoot.length = 32) : (encodeFields p).length = 80 := by
  simp [encodeFields, writeInt32LE, writeUInt32LE, natToBytesLE_length, h1, h2]

theorem parseFixedFields_rt {bs : List Nat} {p : PureHeader}
    {r : List Nat}
    (h : parseFixedFields bs = some (p, r)) (hv : ValidBytes bs) :
    ValidBytes r ∧ bs.length = 80 + r.length ∧
      p.prevHash.length = 32 ∧ p.merkleRoot.length = 32 ∧
      ∀ tail, parseFixedFields (encodeFields p ++ tail) = some (p, tail) := by
  simp only [parseFixedFields, Option.bind_eq_some] at h
  obtain ⟨⟨ver, bs1⟩, h1, h⟩ := h
  obtain ⟨⟨ph1, bs2⟩, h2, h⟩ := h
  obtain ⟨⟨mr, bs3⟩, h3, h⟩ := h
  obtain ⟨⟨time, bs4⟩, h4, h⟩ := h
  obtain ⟨⟨bits, bs5⟩, h5, h⟩ := h
  obtain ⟨⟨nonce, bs6⟩, h6, h⟩ := h
  simp only [Option.some.injEq, Prod.mk.injEq] at h
  obtain ⟨rfl, rfl⟩ := h
  dsimp only at *
  obtain ⟨hver_lo, hver_hi, hv1⟩ := readInt32LE_bound (i := ver) (r := bs1)
    h1 hv
  have hlen1 := readInt32LE_len (i := ver) (r := bs1) h1
  obtain ⟨hl2, rfl⟩ := readBytes_eq h2
  obtain ⟨hv_p, hv2⟩ := validBytes_append.mp hv1
  obtain ⟨hl3, rfl⟩ := readBytes_eq h3
  obtain ⟨hv_m, hv3⟩ := validBytes_append.mp hv2
  obtain ⟨htime, hv4⟩ := readUInt32LE_bound (n := time) (r := bs4) h4 hv3
  have hlen4 := readUInt32LE_len (n := time) (r := bs4) h4
  obtain ⟨hbits, hv5⟩ := readUInt32LE_bound (n := bits) (r := bs5) h5 hv4
  have hlen5 := readUInt32LE_len (n := bits) (r := bs5) h5
  obtain ⟨hnonce, hv6⟩ := readUInt32LE_bound (n := nonce) (r := bs6) h6 hv5
  have hlen6 := readUInt32LE_len (n := nonce) (r := bs6) h6
  have e2 : ∀ tl : List Nat, readBytes 32 (ph1 ++ tl) = some (ph1, tl) := by
    intro tl
    have := readBytes_write (v := ph1) tl
    rwa [hl2] at this
  have e3 : ∀ tl : List Nat, readBytes 32 (mr ++ tl) = some (mr, tl) := by
    intro tl
    have := readBytes_write (v := mr) tl
    rwa [hl3] at this
  refine ⟨hv6, ?_, hl2, hl3, ?_⟩
  · simp only [List.length_append] at hlen1 ⊢
    omega
  · intro tail
    simp only [encodeFields, List.append_assoc, parseFixedFields,
      readInt32LE_write hver_lo hver_hi, Option.some_bind, e2, e3,
      readUInt32LE_write htime, readUInt32LE_write hbits,
      readUInt32LE_write hnonce]

theorem parseAuxPow_rt {bs : List Nat} {a : AuxPow} {r : List Nat}
    (h : parseAuxPow bs = some (a, r)) (hv : ValidBytes bs)
    (hbs : bs.length < 2 ^ 53)
    (hex : ¬(a.coinbaseTxn.flag = 0 ∧ a.coinbaseTxn.txInCount = 0 ∧
      a.coinbaseTxn.txOutCount = 1)) :
    ValidBytes r ∧ r.length ≤ bs.length ∧
      ∀ tail, parseAuxPow (encodeAuxPow a ++ tail) = some (a, tail) := by
  simp only [parseAuxPow, Option.bind_eq_some] at h
  obtain ⟨⟨txn, bs1⟩, h1, h⟩ := h
  obtain ⟨⟨bh, bs2⟩, h2, h⟩ := h
  obtain ⟨⟨cb, bs3⟩, h3, h⟩ := h
  obtain ⟨⟨bb, bs4⟩, h4, h⟩ := h
  obtain ⟨⟨pb, bs5⟩, h5, h⟩ := h
  obtain ⟨⟨parent, rest0⟩, h6, h⟩ := h
  simp only [Option.some.injEq, Prod.mk.injEq] at h
  obtain ⟨rfl, rfl⟩ := h
  dsimp only at *
  obtain ⟨hv1, hlen1, eTxn⟩ := getTxn_rt (t := txn) (r := bs1) h1 hv hbs hex
  obtain ⟨hl2, rfl⟩ := readBytes_eq h2
  obtain ⟨hv_bh, hv2⟩ := validBytes_append.mp hv1
  obtain ⟨hv3, hlen3, eCb⟩ := parseMerkleBranch_rt (m := cb) (r := bs3)
    h3 hv2
  obtain ⟨hv4, hlen4, eBb⟩ := parseMerkleBranch_rt (m := bb) (r := bs4)
    h4 hv3
  obtain ⟨hl5, rfl⟩ := readBytes_eq h5
  obtain ⟨hv_pb, hv5⟩ := validBytes_append.mp hv4
  obtain ⟨hv6, hplen, hpl1, hpl2, ePar⟩ := parseFixedFields_rt (p := parent)
    (r := rest0) h6 hv_pb
  have e2 : ∀ tl : List Nat, readBytes 32 (bh ++ tl) = some (bh, tl) := by
    intro tl
    have := readBytes_write (v := bh) tl
    rwa [hl2] at this
  have e5 : ∀ tl : List Nat, readBytes 80 (encodeFields parent ++ tl) =
      some (encodeFields parent, tl) := by
    intro tl
    have := readBytes_write (v := encodeFields parent) tl
    rwa [encodeFields_length hpl1 hpl2] at this
  have ePar0 : parseFixedFields (encodeFields parent) = some (parent, []) := by
    have := ePar []
    rwa [List.append_nil] at this
  refine ⟨hv5, ?_, ?_⟩
  · simp only [List.length_append] at hlen1 hlen3 hlen4 ⊢
    omega
  · intro tail
    simp only [encodeAuxPow, List.append_assoc, parseAuxPow, eTxn,
      Option.some_bind, e2, eCb, eBb, e5, ePar0]

theorem parseHeader_rt {bs : List Nat} {h : BlockHeader} {r : List Nat}
    (hdec : parseHeader bs = some (h, r)) (hv : ValidBytes bs)
    (hbs : bs.length < 2 ^ 53)
    (hex : ∀ a, h.auxpowF = some a → ¬(a.coinbaseTxn.flag = 0 ∧
      a.coinbaseTxn.txInCount = 0 ∧ a.coinbaseTxn.txOutCount = 1)) :
    parseHeader (toBuffer h true) = some (h, []) ∧
      h.prevHash.length = 32 ∧ h.merkleRoot.length = 32 := by
  simp only [parseHeader, Option.bind_eq_some] at hdec
  obtain ⟨⟨p, bs1⟩, h1, hdec⟩ := hdec
  dsimp only at hdec
  obtain ⟨hv1, hplen, hp1, hp2, eF⟩ := parseFixedFields_rt (p := p)
    (r := bs1) h1 hv
  by_cases hax : isAuxPowVersion p.version
  · rw [if_pos hax] at hdec
    simp only [Option.bind_eq_some] at hdec
    obtain ⟨⟨ap, bs2⟩, h2, hdec⟩ := hdec
    simp only [Option.some.injEq, Prod.mk.injEq] at hdec
    obtain ⟨rfl, rfl⟩ := hdec
    dsimp only at *
    have hex' := hex ap rfl
    obtain ⟨hv2, hlen2, eA⟩ := parseAuxPow_rt (a := ap) (r := bs2) h2 hv1
      (by omega) hex'
    have eA0 : parseAuxPow (encodeAuxPow ap) = some (ap, []) := by
      have := eA []
      rwa [List.append_nil] at this
    have htb : toBuffer ⟨p, some ap⟩ true =
        encodeFields p ++ encodeAuxPow ap := by
      simp [toBuffer, hax]
    rw [htb]
    refine ⟨?_, hp1, hp2⟩
    simp only [parseHeader, eF, Option.some_bind, if_pos hax, eA0]
  · rw [if_neg hax] at hdec
    simp only [Option.some.injEq, Prod.mk.injEq] at hdec
    obtain ⟨rfl, rfl⟩ := hdec
    dsimp only at *
    have htb : toBuffer ⟨p, none⟩ true = encodeFields p ++ [] := by
      simp [toBuffer, hax]
    rw [htb]
    refine ⟨?_, hp1, hp2⟩
    simp only [parseHeader, eF, Option.some_bind, if_neg hax]

/-! ## Helper lemmas for the difficulty and hash engines -/

theorem mulLoop_eq (target n : Nat) : mulLoop target n = target * 2 ^ n := by
  induction n generalizing target with
  | zero => simp [mulLoop]
  | succ n ih =>
    rw [mulLoop, ih]
    ring

theorem getTargetDifficulty_eq (bits : Nat) :
    getTargetDifficulty bits = (bits % 2 ^ 32 % 2 ^ 24) *
      2 ^ (8 * (((bits % 2 ^ 32 / 2 ^ 24 : Nat) : Int) - 3)).toNat := by
  simp only [getTargetDifficulty]
  rw [mulLoop_eq]

theorem getTargetDifficultyMethod_none (h : BlockHeader) :
    getTargetDifficultyMethod h none = getTargetDifficulty h.bits := rfl

theorem toBuffer_false (h : BlockHeader) :
    toBuffer h false = encodeFields h.toPureHeader := by
  simp [toBuffer]

theorem shiftUp_30 (d : ℚ) : difficultyShiftUp d 30 = d := by
  rw [difficultyShiftUp]
  norm_num

theorem shiftDown_30 (d : ℚ) : difficultyShiftDown d 30 = d / 256 := by
  rw [difficultyShiftDown]
  norm_num
  rw [difficultyShiftDown]
  norm_num

theorem getDifficulty_genesisBits : getDifficulty 0x1e0ffff0 = 1 / 4096 := by
  have h1 : getDifficulty 0x1e0ffff0 =
      toFixed19 (difficultyShiftDown (difficultyShiftUp
        (65535 / ((1048560 : Nat) : ℚ)) 30) 30) := by
    rw [getDifficulty]
    norm_num
  rw [h1, shiftUp_30, shiftDown_30]
  have h2 : 65535 / ((1048560 : Nat) : ℚ) / 256 = 1 / 4096 := by
    norm_num
  rw [h2, toFixed19]
  norm_num

theorem getDifficulty_zero : getDifficulty 0 = 1 := by
  rw [getDifficulty]
  norm_num

theorem parseFixedFields_len {bs : List Nat} {p : PureHeader}
    {r : List Nat} (h : parseFixedFields bs = some (p, r)) :
    bs.length = 80 + r.length := by
  simp only [parseFixedFields, Option.bind_eq_some] at h
  obtain ⟨⟨ver, bs1⟩, h1, h⟩ := h
  obtain ⟨⟨ph1, bs2⟩, h2, h⟩ := h
  obtain ⟨⟨mr, bs3⟩, h3, h⟩ := h
  obtain ⟨⟨time, bs4⟩, h4, h⟩ := h
  obtain ⟨⟨bits, bs5⟩, h5, h⟩ := h
  obtain ⟨⟨nonce, bs6⟩, h6, h⟩ := h
  simp only [Option.some.injEq, Prod.mk.injEq] at h
  obtain ⟨rfl, rfl⟩ := h
  dsimp only at *
  have l1 := readInt32LE_len (i := ver) (r := bs1) h1
  obtain ⟨hl2, rfl⟩ := readBytes_eq h2
  obtain ⟨hl3, rfl⟩ := readBytes_eq h3
  have l4 := readUInt32LE_len (n := time) (r := bs4) h4
  have l5 := readUInt32LE_len (n := bits) (r := bs5) h5
  have l6 := readUInt32LE_len (n := nonce) (r := bs6) h6
  simp only [List.length_append] at l1 ⊢
  omega

theorem readBranchHashes_len {n : Nat} {bs : List Nat} {g : List (List Nat)}
    {r : List Nat} (h : readBranchHashes n bs = some (g, r)) :
    32 * n + r.length ≤ bs.length := by
  induction n generalizing bs g r with
  | zero =>
    simp only [readBranchHashes, Option.some.injEq, Prod.mk.injEq] at h
    obtain ⟨rfl, rfl⟩ := h
    omega
  | succ n ih =>
    simp only [readBranchHashes, Option.bind_eq_some] at h
    obtain ⟨⟨x, bs1⟩, h1, h⟩ := h
    obtain ⟨⟨g', bs2⟩, h2, h⟩ := h
    simp only [Option.some.injEq, Prod.mk.injEq] at h
    obtain ⟨rfl, rfl⟩ := h
    dsimp only at *
    obtain ⟨hxl, rfl⟩ := readReverse32_eq h1
    have := ih (g := g') (r := bs2) h2
    simp only [List.length_append, List.length_reverse, hxl]
    omega

theorem powCheck_iff (target pow : Nat) :
    ((if target < pow then false else true) = true) ↔ pow ≤ target := by
  split_ifs with hlt
  · simp
    omega
  · simp
    omega

/-! ## Claim theorems -/

/-- C4: for every 32-bit `bits` value with nonzero low 24 bits,
`getTargetDifficulty(bits)` is the mantissa `bits & 0xFFFFFF` shifted left
by `8 * (((bits >> 24) & 0xFF) - 3)` bit positions, with a negative shift
count acting as a no-op (the result then equals the mantissa unchanged);
the successive-doubling loop produces a result identical to the raw
shift. -/
theorem c4_getTargetDifficulty_formula (bits : Nat) (h32 : bits < 2 ^ 32)
    (hmant : bits % 2 ^ 24 ≠ 0) :
    getTargetDifficulty bits =
      if 3 ≤ bits / 2 ^ 24 then
        (bits % 2 ^ 24) * 2 ^ (8 * (bits / 2 ^ 24 - 3))
      else bits % 2 ^ 24 := by
  rw [getTargetDifficulty_eq, Nat.mod_eq_of_lt h32]
  split_ifs with h3
  · have he : (8 * (((bits / 2 ^ 24 : Nat) : Int) - 3)).toNat =
        8 * (bits / 2 ^ 24 - 3) := by omega
    rw [he]
  · have he : (8 * (((bits / 2 ^ 24 : Nat) : Int) - 3)).toNat = 0 := by omega
    rw [he, pow_zero, Nat.mul_one]

/-- Witness for C4 at `bits = 0x04000001`. -/
theorem c4_getTargetDifficulty_formula_witness :
    (0x04000001 : Nat) < 2 ^ 32 ∧ (0x04000001 : Nat) % 2 ^ 24 ≠ 0 ∧
      getTargetDifficulty 0x04000001 =
        if 3 ≤ (0x04000001 : Nat) / 2 ^ 24 then
          ((0x04000001 : Nat) % 2 ^ 24) *
            2 ^ (8 * ((0x04000001 : Nat) / 2 ^ 24 - 3))
        else (0x04000001 : Nat) % 2 ^ 24 :=
  ⟨by decide, by decide,
    c4_getTargetDifficulty_formula 0x04000001 (by decide) (by decide)⟩

/-- C6 as stated is false at the clamped low exponents: `bits = 0x02000001`
and `bits = 0x03000001` have equal mantissa 1 and exponents 2 and 3, yet
both targets are 1 (the would-be negative shift is a no-op), not a factor
of 256 apart. -/
theorem c6_target_ratio_counterexample :
    (0x02000001 : Nat) % 2 ^ 24 = (0x03000001 : Nat) % 2 ^ 24 ∧
    (0x03000001 : Nat) / 2 ^ 24 = (0x02000001 : Nat) / 2 ^ 24 + 1 ∧
    getTargetDifficulty 0x03000001 ≠ 256 * getTargetDifficulty 0x02000001 :=
  ⟨by decide, by decide, by decide⟩

/-- C6 amended: for two 32-bit `bits` values with equal mantissa and
exponents differing by exactly 1, the target of the larger exponent is
exactly 256 times the other, provided the smaller exponent is at least 3
(so that neither shift count is negative). -/
theorem c6_target_ratio_amended (b1 b2 : Nat) (h1 : b1 < 2 ^ 32)
    (h2 : b2 < 2 ^ 32) (hm : b1 % 2 ^ 24 = b2 % 2 ^ 24)
    (he : b2 / 2 ^ 24 = b1 / 2 ^ 24 + 1) (h3 : 3 ≤ b1 / 2 ^ 24) :
    getTargetDifficulty b2 = 256 * getTargetDifficulty b1 := by
  rw [getTargetDifficulty_eq, getTargetDifficulty_eq, Nat.mod_eq_of_lt h1,
    Nat.mod_eq_of_lt h2, ← hm, he]
  have hx : (8 * (((b1 / 2 ^ 24 + 1 : Nat) : Int) - 3)).toNat =
      8 + (8 * (((b1 / 2 ^ 24 : Nat) : Int) - 3)).toNat := by omega
  rw [hx, pow_add]
  ring

/-- Witness for the amended C6 at `0x03000001` and `0x04000001`. -/
theorem c6_target_ratio_amended_witness :
    getTargetDifficulty 0x04000001 = 256 * getTargetDifficulty 0x03000001 :=
  c6_target_ratio_amended 0x03000001 0x04000001 (by decide) (by decide)
    (by decide) (by decide) (by decide)

/-- C5 as stated is false on its reference vector: `getDifficulty` at
`bits = 0x1e0ffff0` returns exactly 1/4096 = 0.000244140625, which is
nowhere near 1.0 (the computation normalizes against exponent byte 29,
Bitcoin's `0x1d00ffff` difficulty-1 convention, not Dogecoin's genesis
bits). -/
theorem c5_difficulty_counterexample :
    getDifficulty 0x1e0ffff0 = 1 / 4096 ∧
      getDifficulty 0x1e0ffff0 < 1 / 100 := by
  refine ⟨getDifficulty_genesisBits, ?_⟩
  rw [getDifficulty_genesisBits]
  norm_num

/-- C5 amended: `getDifficulty` returns exactly 1.0 when `bits = 0`, and
for `bits = 0x1e0ffff0` returns exactly 0.000244140625, computed as
0x0000FFFF divided by the low 24 bits, normalized by factors of 256 until
the exponent byte reaches 29, then rounded to 19 decimal digits (an exact
no-op here). -/
theorem c5_difficulty_amended :
    getDifficulty 0 = 1 ∧ getDifficulty 0x1e0ffff0 = 0.000244140625 := by
  refine ⟨getDifficulty_zero, ?_⟩
  rw [getDifficulty_genesisBits]
  norm_num

/-- C10: an explicit argument of 0 to `getTargetDifficulty` is treated as
an absent argument by the truthiness default `bits = bits || this.bits`:
the result is the target for the header's own stored bits (not the target
for bits = 0, from which it differs in general). -/
theorem c10_explicit_zero_truthiness :
    (∀ h : BlockHeader,
      getTargetDifficultyMethod h (some 0) = getTargetDifficulty h.bits ∧
      getTargetDifficultyMethod h (some 0) =
        getTargetDifficultyMethod h none) ∧
    ∃ h : BlockHeader,
      getTargetDifficultyMethod h (some 0) ≠ getTargetDifficulty 0 := by
  refine ⟨fun h => ⟨rfl, rfl⟩,
    ⟨⟨⟨0, [], [], 0, 0x03000001, 0⟩, none⟩, by decide⟩⟩

/-- C1: `validProofOfWork` scrypt-hashes the parent header's fixed-field
encoding when the header has AuxPoW and the header's own encoding (equal
to its 80-byte AuxPoW-free encoding) otherwise, interprets the digest as a
little-endian unsigned integer, and returns true exactly when that integer
is at most `getTargetDifficulty(bits)`.  The little-endian digest
interpretation is modelled from the spec, the `BN`-from-buffer wrapper
(`crypto/bn.js`) not being among the sources. -/
theorem c1_validProofOfWork_iff (scrypt : List Nat → List Nat)
    (h : BlockHeader) :
    (∀ a, h.auxpowF = some a → isAuxPowVersion h.version = true →
      ((validProofOfWork scrypt h = some true ↔
        bytesToNatLE (scrypt (encodeFields a.parentBlock)) ≤
          getTargetDifficulty h.bits) ∧
        (a.parentBlock.prevHash.length = 32 →
          a.parentBlock.merkleRoot.length = 32 →
          (encodeFields a.parentBlock).length = 80))) ∧
    (isAuxPowVersion h.version = false →
      ((validProofOfWork scrypt h = some true ↔
        bytesToNatLE (scrypt (toBuffer h true)) ≤
          getTargetDifficulty h.bits) ∧
        toBuffer h true = toBuffer h false ∧
        (h.prevHash.length = 32 → h.merkleRoot.length = 32 →
          (toBuffer h true).length = 80))) := by
  constructor
  · intro a ha hax
    refine ⟨?_, fun hp1 hp2 => encodeFields_length hp1 hp2⟩
    simp only [validProofOfWork, ha]
    rw [if_pos hax]
    simp only [getTargetDifficultyMethod_none, Option.some.injEq]
    exact powCheck_iff _ _
  · intro hax
    have hnotax : ¬isAuxPowVersion h.version = true := by simp [hax]
    have htb : toBuffer h true = encodeFields h.toPureHeader := by
      simp [toBuffer, hax]
    refine ⟨?_, ?_, ?_⟩
    · simp only [validProofOfWork]
      rw [if_neg hnotax]
      simp only [getTargetDifficultyMethod_none, Option.some.injEq]
      exact powCheck_iff _ _
    · rw [toBuffer_false, htb]
    · intro hp1 hp2
      rw [htb]
      exact encodeFields_length hp1 hp2

/-- Witness for C1: an AuxPoW header and a plain header checked with the
constant empty-digest scrypt stub, whose little-endian value 0 is below
the target of `bits = 1`. -/
theorem c1_validProofOfWork_iff_witness :
    validProofOfWork (fun _ => [])
      ⟨⟨256, [], [], 0, 1, 0⟩,
        some ⟨⟨0, 0, 0, [], 0, [], [], 0⟩, [], ⟨0, [], 0⟩, ⟨0, [], 0⟩,
          ⟨0, [], [], 0, 0, 0⟩⟩⟩ = some true ∧
    validProofOfWork (fun _ => []) ⟨⟨1, [], [], 0, 1, 0⟩, none⟩ =
      some true := by
  constructor
  · exact (((c1_validProofOfWork_iff (fun _ => []) _).1 _ rfl
      (by decide)).1).mpr (by decide)
  · exact (((c1_validProofOfWork_iff (fun _ => []) _).2 (by decide)).1).mpr
      (by decide)

/-- C2: the identity hash is computed from the 80-byte encoding that
always excludes AuxPoW, so it is a function of the fixed fields only: two
headers with identical fixed fields hash identically whatever their
AuxPoW slots hold. -/
theorem c2_hash_fixed_fields_only (sha256d : List Nat → List Nat)
    (h1 h2 : BlockHeader) (hfix : h1.toPureHeader = h2.toPureHeader) :
    headerId sha256d h1 = headerId sha256d h2 := by
  rw [headerId, headerId, toBuffer_false, toBuffer_false, hfix]

/-- Witness for C2: identical fixed fields, AuxPoW absent versus
present. -/
theorem c2_hash_fixed_fields_only_witness :
    headerId (fun bs => bs) ⟨⟨1, [], [], 0, 0, 0⟩, none⟩ =
      headerId (fun bs => bs)
        ⟨⟨1, [], [], 0, 0, 0⟩,
          some ⟨⟨0, 0, 0, [], 0, [], [], 0⟩, [], ⟨0, [], 0⟩, ⟨0, [], 0⟩,
            ⟨0, [], [], 0, 0, 0⟩⟩⟩ :=
  c2_hash_fixed_fields_only (fun bs => bs) _ _ rfl

/-- C8: constructing a header from a field map carrying a `hash` field
fails exactly when the supplied hash differs from the computed one, and on
success the constructed header's hash equals the supplied one. -/
theorem c8_hash_state_check (sha256d : List Nat → List Nat)
    (info : BlockHeader) (s : List Nat) :
    (blockHeaderChecked sha256d info (some s) = none ↔
      headerId sha256d info ≠ s) ∧
    (∀ h', blockHeaderChecked sha256d info (some s) = some h' →
      headerId sha256d h' = s ∧ h' = info) := by
  constructor
  · rw [blockHeaderChecked]
    split_ifs with he
    · simp [he]
    · simp [he]
  · intro h' hh
    rw [blockHeaderChecked] at hh
    split_ifs at hh with he
    cases hh
    exact ⟨he, rfl⟩

/-- Witness for C8: a wrong supplied hash is rejected, a matching one is
accepted with the computed hash. -/
theorem c8_hash_state_check_witness :
    blockHeaderChecked (fun _ => [3, 4]) ⟨⟨1, [], [], 0, 0, 0⟩, none⟩
        (some [9]) = none ∧
      headerId (fun _ => [3, 4]) ⟨⟨1, [], [], 0, 0, 0⟩, none⟩ = [4, 3] := by
  constructor
  · exact (c8_hash_state_check (fun _ => [3, 4]) _ [9]).1.mpr (by decide)
  · exact ((c8_hash_state_check (fun _ => [3, 4])
      ⟨⟨1, [], [], 0, 0, 0⟩, none⟩ [4, 3]).2
      ⟨⟨1, [], [], 0, 0, 0⟩, none⟩ (by decide)).1

/-- C7: AuxPoW presence is gated by bit 8 of the version.  A header whose
version lacks the bit decodes without ever attempting AuxPoW parsing, its
trailing bytes untouched; a header whose version has the bit decodes
exactly when a well-formed AuxPoW payload follows the 80 fixed bytes; and
the `auxpow` getter of a flag-unset header is `null`, never an error. -/
theorem c7_auxpow_flag_gating :
    (∀ bs p r, parseFixedFields bs = some (p, r) →
      isAuxPowVersion p.version = false →
      parseHeader bs = some (⟨p, none⟩, r)) ∧
    (∀ bs p r, parseFixedFields bs = some (p, r) →
      isAuxPowVersion p.version = true →
      parseHeader bs = (parseAuxPow r).map
        (fun ar => (⟨p, some ar.1⟩, ar.2))) ∧
    (∀ h : BlockHeader, isAuxPowVersion h.version = false →
      auxpowGetter h = none) := by
  refine ⟨?_, ?_, ?_⟩
  · intro bs p r hp hax
    simp only [parseHeader, hp, Option.some_bind]
    rw [if_neg (by simp [hax])]
  · intro bs p r hp hax
    simp only [parseHeader, hp, Option.some_bind]
    rw [if_pos hax]
    cases hap : parseAuxPow r with
    | none => rfl
    | some v => rfl
  · intro h hax
    rw [auxpowGetter, if_neg (by simp [hax])]

/-- Witness for C7: a version-1 header with three trailing bytes decodes
with no AuxPoW and the trailing bytes intact; a version-0x100 header with
nothing after the 80 fixed bytes fails to decode; the getter of a
flag-unset header is `none`. -/
theorem c7_auxpow_flag_gating_witness :
    parseHeader ((natToBytesLE 4 1 ++ List.replicate 76 0) ++ [9, 9, 9]) =
      some (⟨⟨1, List.replicate 32 0, List.replicate 32 0, 0, 0, 0⟩, none⟩,
        [9, 9, 9]) ∧
    parseHeader (natToBytesLE 4 256 ++ List.replicate 76 0) = none ∧
    auxpowGetter ⟨⟨1, [], [], 0, 0, 0⟩, none⟩ = none := by
  refine ⟨?_, ?_, ?_⟩
  · exact c7_auxpow_flag_gating.1 _
      ⟨1, List.replicate 32 0, List.replicate 32 0, 0, 0, 0⟩ [9, 9, 9]
      (by decide) (by decide)
  · have := c7_auxpow_flag_gating.2.1
      (natToBytesLE 4 256 ++ List.replicate 76 0)
      ⟨256, List.replicate 32 0, List.replicate 32 0, 0, 0, 0⟩ []
      (by decide) (by decide)
    rw [this]
    rfl
  · exact c7_auxpow_flag_gating.2.2 _ (by decide)

/-- C9: decoding any buffer shorter than 80 bytes fails (no out-of-bounds
read, no header produced), and a Merkle branch whose varint count implies
more 32-byte hashes than the remaining bytes fails the same way — the
decoder never silently truncates or zero-fills. -/
theorem c9_truncation_safety :
    (∀ bs : List Nat, bs.length < 80 → parseHeader bs = none) ∧
    (∀ bs n r, readVarintNum bs = some (n, r) →
      r.length < 32 * n → parseMerkleBranch bs = none) := by
  constructor
  · intro bs hlen
    cases hp : parseHeader bs with
    | none => rfl
    | some v =>
      exfalso
      simp only [parseHeader, Option.bind_eq_some] at hp
      obtain ⟨⟨p, bs1⟩, h1, -⟩ := hp
      have := parseFixedFields_len (p := p) (r := bs1) h1
      omega
  · intro bs n r hvar hshort
    cases hp : parseMerkleBranch bs with
    | none => rfl
    | some v =>
      exfalso
      simp only [parseMerkleBranch, Option.bind_eq_some] at hp
      obtain ⟨⟨blen, bs1⟩, h1, hp⟩ := hp
      obtain ⟨⟨g, bs2⟩, h2, -⟩ := hp
      dsimp only at h2
      rw [hvar] at h1
      simp only [Option.some.injEq, Prod.mk.injEq] at h1
      obtain ⟨rfl, rfl⟩ := h1
      have := readBranchHashes_len (g := g) (r := bs2) h2
      omega

/-- Witness for C9: a three-byte buffer fails, and a branch declaring two
hashes over 40 remaining bytes fails. -/
theorem c9_truncation_safety_witness :
    parseHeader [1, 2, 3] = none ∧
    parseMerkleBranch (2 :: List.replicate 40 0) = none := by
  constructor
  · exact c9_truncation_safety.1 [1, 2, 3] (by decide)
  · exact c9_truncation_safety.2 (2 :: List.replicate 40 0) 2
      (List.replicate 40 0) (by decide) (by decide)

/-- A well-formed AuxPoW header stream: version `0x100`, all-zero fixed
fields, a one-input/one-output coinbase transaction without witnesses,
empty Merkle branches, and an all-zero 80-byte parent header. -/
def c3SampleBytes : List Nat :=
  natToBytesLE 4 256 ++ List.replicate 32 0 ++ List.replicate 32 0 ++
    natToBytesLE 4 0 ++ natToBytesLE 4 0 ++ natToBytesLE 4 0 ++
    (natToBytesLE 4 1 ++ [1] ++
      (List.replicate 32 0 ++ List.replicate 4 0 ++ [0] ++
        natToBytesLE 4 0) ++
      [1] ++ (List.replicate 8 0 ++ [0]) ++ natToBytesLE 4 0 ++
      List.replicate 32 0 ++ ([0] ++ natToBytesLE 4 0) ++
      ([0] ++ natToBytesLE 4 0) ++ List.replicate 80 0)

/-- The AuxPoW payload decoded from `c3SampleBytes`. -/
def c3SampleAux : AuxPow :=
  ⟨⟨1, 0, 1, [⟨List.replicate 32 0, List.replicate 4 0, 0, [], 0⟩],
    1, [⟨List.replicate 8 0, 0, []⟩], [], 0⟩,
    List.replicate 32 0, ⟨0, [], 0⟩, ⟨0, [], 0⟩,
    ⟨0, List.replicate 32 0, List.replicate 32 0, 0, 0, 0⟩⟩

/-- The header decoded from `c3SampleBytes`. -/
def c3SampleHeader : BlockHeader :=
  ⟨⟨256, List.replicate 32 0, List.replicate 32 0, 0, 0, 0⟩,
    some c3SampleAux⟩

/-- The adversarial stream refuting C3 as stated: the coinbase input count
is the non-canonical varint `fd 00 00` (value 0) and there is exactly one
output, so this stream decodes, but its canonical re-encoding starts
`00 01` after the transaction version, which the decoder consumes as a
witness flag. -/
def c3CexBytes : List Nat :=
  natToBytesLE 4 256 ++ List.replicate 32 0 ++ List.replicate 32 0 ++
    natToBytesLE 4 0 ++ natToBytesLE 4 0 ++ natToBytesLE 4 0 ++
    (natToBytesLE 4 1 ++ [0xfd, 0, 0] ++ [1] ++
      (List.replicate 8 0xaa ++ [0]) ++ natToBytesLE 4 0 ++
      List.replicate 32 0 ++ ([0] ++ natToBytesLE 4 0) ++
      ([0] ++ natToBytesLE 4 0) ++ List.replicate 80 0)

/-- The header decoded from `c3CexBytes`: no witness flag, zero inputs,
one output. -/
def c3CexHeader : BlockHeader :=
  ⟨⟨256, List.replicate 32 0, List.replicate 32 0, 0, 0, 0⟩,
    some ⟨⟨1, 0, 0, [], 1, [⟨List.replicate 8 0xaa, 0, []⟩], [], 0⟩,
      List.replicate 32 0, ⟨0, [], 0⟩, ⟨0, [], 0⟩,
      ⟨0, List.replicate 32 0, List.replicate 32 0, 0, 0, 0⟩⟩⟩

set_option maxRecDepth 100000

/-- C3 as stated is false: `c3CexBytes` decodes successfully (via a
non-canonical varint), yet decoding its re-encoding does not return the
same header — the canonical bytes `00 01` at the input-count position are
mistaken for a witness flag, and the re-decode fails. -/
theorem c3_roundtrip_counterexample :
    parseHeader c3CexBytes = some (c3CexHeader, []) ∧
      parseHeader (toBuffer c3CexHeader true) ≠ some (c3CexHeader, []) := by
  constructor
  · decide
  · decide

/-- C3 amended: for every header decoded from actual buffer bytes whose
AuxPoW coinbase transaction (when present) does not simultaneously have no
witness flag, zero inputs and exactly one output, decoding the
`includeAuxPow = true` encoding returns the same header field-for-field
with no bytes left over; and the `includeAuxPow = false` encoding is
exactly 80 bytes. -/
theorem c3_roundtrip_amended (bs : List Nat) (h : BlockHeader)
    (r : List Nat) (hv : ValidBytes bs) (hbs : bs.length < 2 ^ 53)
    (hdec : parseHeader bs = some (h, r))
    (hex : ∀ a, h.auxpowF = some a → ¬(a.coinbaseTxn.flag = 0 ∧
      a.coinbaseTxn.txInCount = 0 ∧ a.coinbaseTxn.txOutCount = 1)) :
    parseHeader (toBuffer h true) = some (h, []) ∧
      (toBuffer h false).length = 80 := by
  obtain ⟨hrt, hp1, hp2⟩ := parseHeader_rt hdec hv hbs hex
  refine ⟨hrt, ?_⟩
  rw [toBuffer_false]
  exact encodeFields_length hp1 hp2

/-- Witness for the amended C3 on the concrete AuxPoW stream
`c3SampleBytes`. -/
theorem c3_roundtrip_amended_witness :
    parseHeader (toBuffer c3SampleHeader true) = some (c3SampleHeader, []) ∧
      (toBuffer c3SampleHeader false).length = 80 :=
  c3_roundtrip_amended c3SampleBytes c3SampleHeader [] (by decide)
    (by decide) (by decide)
    (by
      intro a ha
      have hsome : some c3SampleAux = some a := ha
      cases hsome
      decide)

end Doge
